import Mathlib

/-!
Shallow embedding of BufferedSerial2 (src/BufferedSerial2.cpp, src/BufferedSerial2.h):
a buffered, interrupt-driven serial port.  Bytes are modelled as `Nat` values,
the pointed-to memory of bulk `write` as a function `Nat → Nat` (byte at offset),
and a possibly-NULL pointer as an `Option`.

The port's observable state bundles the two ring buffers, the `m_block_on_full`
policy flag, whether the TX interrupt handler is attached (the spec's
ENABLED/DISABLED state machine), and a model of the hardware UART: `hwSlots` is
the number of bytes the hardware can currently accept (`serial_writable` is
`0 < hwSlots`), and `hwWritten` is the sequence of bytes delivered to the
hardware by `serial_putc`, in order.

Write-family calls are modelled in the calling context with no concurrent
interrupt activity: a busy-wait `while (m_block_on_full && _txbuf.full());`
on a full buffer never completes there (result `none`), otherwise the call
completes and additionally yields the trace of tx-buffer actions it performed.
-/

/-- Modelled from the spec: `mbed::CircularBuffer2<char>` (header
`CircularBuffer2.h` is not part of the two sources).  Per spec §3/§4.1 it is a
fixed-capacity FIFO; we represent it by its capacity and the queue of unread
elements, oldest first.  Invariant maintained by the operations (for positive
capacity): `data.length ≤ capacity`. -/
structure CircularBuffer2 where
  capacity : Nat
  data : List Nat
deriving DecidableEq

namespace CircularBuffer2

/-- Modelled from the spec: `empty()` — no unread element. -/
def empty (b : CircularBuffer2) : Bool :=
  b.data.isEmpty

/-- Modelled from the spec: `full()` — count has reached capacity. -/
def full (b : CircularBuffer2) : Bool :=
  b.capacity ≤ b.data.length

/-- Modelled from the spec: `push(v)` always succeeds; on a full buffer the
read index advances first, discarding the oldest unread element
(overwrite-oldest policy), then `v` is stored. -/
def push (b : CircularBuffer2) (v : Nat) : CircularBuffer2 :=
  if b.full then { b with data := b.data.tail ++ [v] }
  else { b with data := b.data ++ [v] }

/-- Modelled from the spec: `pop(c)` returns false on an empty buffer (leaving
the out-parameter untouched); otherwise it yields the oldest unread element and
advances past it. -/
def pop (b : CircularBuffer2) : Option (Nat × CircularBuffer2) :=
  match b.data with
  | [] => none
  | c :: rest => some (c, { b with data := rest })

end CircularBuffer2

/-- State of one `BufferedSerial2` port together with the modelled hardware. -/
structure SerialState where
  rxbuf : CircularBuffer2
  txbuf : CircularBuffer2
  m_block_on_full : Bool
  txIrqAttached : Bool
  hwSlots : Nat
  hwWritten : List Nat
deriving DecidableEq

/-- One tx-buffer-affecting step of a write-family call, for stating temporal
properties about the order of busy-waits, enqueues and the `prime()` call. -/
inductive WAction where
  | spinUntilNotFull : WAction
  | enqueue : Nat → WAction
  | callPrime : WAction
deriving DecidableEq

namespace BufferedSerial2

/-- The loop body of `txIrq` (BufferedSerial2.cpp lines 114-130):
`while (serial_writable) { if (!_txbuf.empty()) { pop; serial_putc } else
{ attach(NULL, TxIrq); break } }`.  Arguments: remaining hardware slots, the tx
buffer, bytes already delivered to hardware, current attachment flag.  `pop`
is `none` exactly when the buffer is empty, mirroring the `!_txbuf.empty()`
test. -/
def txIrqLoop : Nat → CircularBuffer2 → List Nat → Bool → Nat × CircularBuffer2 × List Nat × Bool
  | 0, tx, written, att => (0, tx, written, att)
  | n + 1, tx, written, att =>
    match tx.pop with
    | some (c, tx2) => txIrqLoop n tx2 (written ++ [c]) att
    | none => (n + 1, tx, written, false)

/-- `BufferedSerial2::txIrq` (lines 114-130): drain the tx buffer into the
hardware while the hardware accepts bytes; on seeing an empty buffer, detach
the TX interrupt and stop. -/
def txIrq (st : SerialState) : SerialState :=
  let r := txIrqLoop st.hwSlots st.txbuf st.hwWritten st.txIrqAttached
  { st with hwSlots := r.1, txbuf := r.2.1, hwWritten := r.2.2.1, txIrqAttached := r.2.2.2 }

/-- `BufferedSerial2::prime` (lines 132-142): if the hardware is writable,
detach the TX interrupt, run the same drain routine the interrupt runs, then
re-attach it; otherwise do nothing. -/
def prime (st : SerialState) : SerialState :=
  if 0 < st.hwSlots then
    let st2 := txIrq { st with txIrqAttached := false }
    { st2 with txIrqAttached := true }
  else st

/-- Hardware event: the UART frees `k` more slots in its FIFO; if the TX
interrupt is attached it then fires (running `txIrq`).  `k = 0` models a
pending level-triggered interrupt firing while the hardware is already
writable. -/
def fire (st : SerialState) (k : Nat) : SerialState :=
  let st1 := { st with hwSlots := st.hwSlots + k }
  if st1.txIrqAttached then txIrq st1 else st1

/-- A sequence of hardware events after a call. -/
def runFires (st : SerialState) (refills : List Nat) : SerialState :=
  refills.foldl fire st

/-- One per-byte step of the write surface:
`while (m_block_on_full && _txbuf.full()); _txbuf.push(c);`.  In this
single-context model nothing pops concurrently, so a busy-wait entered on a
full buffer never completes (`none`); otherwise the byte is pushed, and the
trace records the busy-wait construct when `m_block_on_full` governs it. -/
def pushBlocking (st : SerialState) (c : Nat) : Option (SerialState × List WAction) :=
  if st.m_block_on_full then
    if st.txbuf.full then none
    else some ({ st with txbuf := st.txbuf.push c }, [.spinUntilNotFull, .enqueue c])
  else
    some ({ st with txbuf := st.txbuf.push c }, [.enqueue c])

/-- The shared per-byte loop of `puts` and `write`: spin-then-push each byte
in order. -/
def pushAll : SerialState → List Nat → Option (SerialState × List WAction)
  | st, [] => some (st, [])
  | st, c :: rest =>
    match pushBlocking st c with
    | none => none
    | some (st1, tr1) =>
      match pushAll st1 rest with
      | none => none
      | some (st2, tr2) => some (st2, tr1 ++ tr2)

/-- `BufferedSerial2::putc` (lines 60-67): spin-then-push the byte `(char)c`,
call `prime()`, return `c`. -/
def putc (st : SerialState) (c : Int) : Option (Int × SerialState × List WAction) :=
  match pushBlocking st (c.emod 256).toNat with
  | none => none
  | some (st1, tr) => some (c, prime st1, tr ++ [.callPrime])

/-- `BufferedSerial2::puts` (lines 69-84): for a non-NULL string, spin-then-push
every byte of the body, then push the line terminator (with no preceding
busy-wait in the source), call `prime()`, and return body length + 1; for a
NULL pointer return 0 with no effect.  A C string body contains no NUL byte. -/
def puts (st : SerialState) (s : Option (List Nat)) : Option (Int × SerialState × List WAction) :=
  match s with
  | some body =>
    match pushAll st body with
    | none => none
    | some (st1, tr) =>
      let st2 := { st1 with txbuf := st1.txbuf.push 10 }
      some ((body.length : Int) + 1, prime st2, tr ++ [.enqueue 10, .callPrime])
  | none => some (0, st, [])

/-- `BufferedSerial2::write` (lines 86-101): for a non-NULL pointer and
positive length, spin-then-push the `length` bytes starting at the pointer in
order, call `prime()`, and return `length`; otherwise return 0 with no
effect. -/
def write (st : SerialState) (s : Option (Nat → Nat)) (length : Nat) : Option (Int × SerialState × List WAction) :=
  match s with
  | some mem =>
    if 0 < length then
      match pushAll st ((List.range length).map mem) with
      | none => none
      | some (st1, tr) => some ((length : Int), prime st1, tr ++ [.callPrime])
    else some (0, st, [])
  | none => some (0, st, [])

/-- `BufferedSerial2::getc` (lines 53-58) and the identical `_getc`
(BufferedSerial2.h lines 159-163): `char c = 0; _rxbuf.pop(c); return c;` —
on an empty rx buffer `pop` leaves `c` at its initialiser 0. -/
def getc (st : SerialState) : Int × SerialState :=
  match st.rxbuf.pop with
  | none => (0, st)
  | some (c, rx2) => ((c : Int), { st with rxbuf := rx2 })

/-- `BufferedSerial2::writeable` (lines 48-51): `return 1;` — always claims
room, reading and writing no port state. -/
def writeable (st : SerialState) : Int × SerialState :=
  (1, st)

end BufferedSerial2

/-- Checks that every `enqueue` in the trace is directly preceded by a
busy-wait on "tx not full" — the property claim C3 asserts of all write-family
traces.  First argument: the action preceding the remaining trace, if any. -/
def spinGuardedFrom : Option WAction → List WAction → Bool
  | _, [] => true
  | prev, a :: rest =>
    (match a with
     | .enqueue _ => decide (prev = some .spinUntilNotFull)
     | _ => true) && spinGuardedFrom (some a) rest

/-- Every enqueue in the trace is directly preceded by a busy-wait. -/
def spinGuarded (tr : List WAction) : Bool :=
  spinGuardedFrom none tr

namespace BufferedSerial2

/-- Drain-loop characterization when the hardware runs out of slots first:
exactly `n` oldest bytes move to the hardware, in order, and the attachment
flag is untouched. -/
theorem txIrqLoop_of_le (n : Nat) :
    ∀ (cap : Nat) (q w : List Nat) (a : Bool), n ≤ q.length →
      txIrqLoop n ⟨cap, q⟩ w a = (0, ⟨cap, q.drop n⟩, w ++ q.take n, a) := by
  induction n with
  | zero => intro cap q w a _; simp [txIrqLoop]
  | succ n ih =>
    intro cap q w a h
    match q with
    | [] => simp at h
    | c :: q2 =>
      simp only [List.length_cons, Nat.succ_le_succ_iff] at h
      simp [txIrqLoop, CircularBuffer2.pop, ih cap q2 (w ++ [c]) a h]

/-- Drain-loop characterization when the buffer empties first: the whole
buffer content moves to the hardware in order, the leftover slots remain, and
the TX interrupt is detached. -/
theorem txIrqLoop_of_gt (n : Nat) :
    ∀ (cap : Nat) (q w : List Nat) (a : Bool), q.length < n →
      txIrqLoop n ⟨cap, q⟩ w a = (n - q.length, ⟨cap, []⟩, w ++ q, false) := by
  induction n with
  | zero => intro cap q w a h; simp at h
  | succ n ih =>
    intro cap q w a h
    match q with
    | [] => simp [txIrqLoop, CircularBuffer2.pop]
    | c :: q2 =>
      simp only [List.length_cons, Nat.succ_lt_succ_iff] at h
      simp [txIrqLoop, CircularBuffer2.pop, ih cap q2 (w ++ [c]) a h]

/-- Invariant of the post-`prime` hardware-event evolution: `q` is the queue
content when `prime` was entered, `w` the bytes the hardware had already
received, `t` the cumulative number of slots the hardware has offered so far.
Either (A) exactly `t` bytes have moved and the interrupt is attached with no
slot left; or (C) everything has moved but `prime`'s final re-attach left the
interrupt attached with slots pending; or (B) everything has moved and the
interrupt has detached itself. -/
def DrainInv (q w : List Nat) (t : Nat) (st : SerialState) : Prop :=
  (t ≤ q.length ∧ st.txbuf.data = q.drop t ∧ st.hwWritten = w ++ q.take t ∧
    st.txIrqAttached = true ∧ st.hwSlots = 0) ∨
  (q.length < t ∧ st.txbuf.data = [] ∧ st.hwWritten = w ++ q ∧
    st.txIrqAttached = true ∧ 0 < st.hwSlots) ∨
  (q.length < t ∧ st.txbuf.data = [] ∧ st.hwWritten = w ++ q ∧
    st.txIrqAttached = false)

/-- The sub-invariant that survives every hardware event: case (C) cannot
recur once an event has fired. -/
def DrainInvAB (q w : List Nat) (t : Nat) (st : SerialState) : Prop :=
  (t ≤ q.length ∧ st.txbuf.data = q.drop t ∧ st.hwWritten = w ++ q.take t ∧
    st.txIrqAttached = true ∧ st.hwSlots = 0) ∨
  (q.length < t ∧ st.txbuf.data = [] ∧ st.hwWritten = w ++ q ∧
    st.txIrqAttached = false)

theorem drainInvAB_drainInv (q w : List Nat) (t : Nat) (st : SerialState)
    (h : DrainInvAB q w t st) : DrainInv q w t st := by
  rcases h with h | h
  · exact Or.inl h
  · exact Or.inr (Or.inr h)

/-- One hardware event takes any invariant state to an (A)∨(B) state, with the
cumulative slot count advanced by the event's refill. -/
theorem fire_drainInv (q w : List Nat) (t k : Nat) (st : SerialState)
    (h : DrainInv q w t st) : DrainInvAB q w (t + k) (fire st k) := by
  rcases h with ⟨ht, hdata, hw, hatt, hslots⟩ | ⟨ht, hdata, hw, hatt, hslots⟩ |
    ⟨ht, hdata, hw, hatt⟩
  · -- case A: all offered slots consumed so far, t bytes moved
    have hbuf : st.txbuf = ⟨st.txbuf.capacity, q.drop t⟩ := by
      rw [← hdata]
    by_cases hk : t + k ≤ q.length
    · -- still not enough slots to finish
      left
      have hk2 : k ≤ (q.drop t).length := by
        simp only [List.length_drop]
        omega
      simp only [fire, hslots, hatt, Nat.zero_add, if_pos rfl, txIrq]
      rw [hbuf, txIrqLoop_of_le k _ _ _ _ hk2]
      refine ⟨hk, ?_, ?_, rfl, rfl⟩
      · simp [List.drop_drop, Nat.add_comm t k]
      · simp [hw, List.take_add, List.append_assoc]
    · -- the buffer drains during this event and the interrupt detaches
      right
      have hk2 : (q.drop t).length < k := by
        simp only [List.length_drop]
        omega
      simp only [fire, hslots, hatt, Nat.zero_add, if_pos rfl, txIrq]
      rw [hbuf, txIrqLoop_of_gt k _ _ _ _ hk2]
      refine ⟨by omega, rfl, ?_, rfl⟩
      simp [hw, List.append_assoc]
  · -- case C: drained but re-attached with pending slots: the event detaches
    right
    have hbuf : st.txbuf = ⟨st.txbuf.capacity, []⟩ := by
      rw [← hdata]
    have hk2 : ([] : List Nat).length < st.hwSlots + k := by
      simp; omega
    simp only [fire, hatt, if_pos rfl, txIrq]
    rw [hbuf, txIrqLoop_of_gt _ _ _ _ _ hk2]
    exact ⟨by omega, rfl, by simpa using hw, rfl⟩
  · -- case B: detached; the event only refills slots
    right
    have hfire : fire st k = { st with hwSlots := st.hwSlots + k } := by
      simp [fire, hatt]
    rw [hfire]
    exact ⟨by omega, hdata, hw, hatt⟩

/-- (A)∨(B) is preserved by any sequence of hardware events, the cumulative
slot count advancing by their sum. -/
theorem runFires_drainInvAB (q w : List Nat) :
    ∀ (rs : List Nat) (t : Nat) (st : SerialState), DrainInvAB q w t st →
      DrainInvAB q w (t + rs.sum) (runFires st rs) := by
  intro rs
  induction rs with
  | nil => intro t st h; simpa [runFires] using h
  | cons r rs ih =>
    intro t st h
    have h2 := fire_drainInv q w t r st (drainInvAB_drainInv q w t st h)
    have h3 := ih (t + r) (fire st r) h2
    simpa [runFires, List.sum_cons, Nat.add_assoc] using h3

/-- `prime`, entered with a writable hardware, establishes the invariant at
cumulative slot count `hwSlots`. -/
theorem prime_drainInv (st : SerialState) (hs : 0 < st.hwSlots) :
    DrainInv st.txbuf.data st.hwWritten st.hwSlots (prime st) := by
  have hbuf : st.txbuf = ⟨st.txbuf.capacity, st.txbuf.data⟩ := by cases st.txbuf; rfl
  by_cases hle : st.hwSlots ≤ st.txbuf.data.length
  · left
    simp only [prime, if_pos hs, txIrq]
    rw [hbuf, txIrqLoop_of_le _ _ _ _ _ hle]
    exact ⟨hle, rfl, rfl, trivial, rfl⟩
  · right; left
    have hgt : st.txbuf.data.length < st.hwSlots := by omega
    simp only [prime, if_pos hs, txIrq]
    rw [hbuf, txIrqLoop_of_gt _ _ _ _ _ hgt]
    exact ⟨hgt, rfl, rfl, trivial, Nat.sub_pos_of_lt hgt⟩

end BufferedSerial2

/-- The bytes enqueued by a trace, in order. -/
def enqueued (tr : List WAction) : List Nat :=
  tr.filterMap (fun a => match a with
    | .enqueue c => some c
    | _ => none)

/-- Cumulative effect of pushing each element of `l` onto a ring buffer, in
order. -/
def pushList (b : CircularBuffer2) (l : List Nat) : CircularBuffer2 :=
  l.foldl CircularBuffer2.push b

theorem pushList_nil (b : CircularBuffer2) : pushList b [] = b := rfl

theorem pushList_cons (b : CircularBuffer2) (c : Nat) (l : List Nat) :
    pushList b (c :: l) = pushList (b.push c) l := rfl

theorem push_capacity (b : CircularBuffer2) (c : Nat) :
    (b.push c).capacity = b.capacity := by
  unfold CircularBuffer2.push
  split <;> rfl

theorem pushList_capacity (l : List Nat) :
    ∀ b : CircularBuffer2, (pushList b l).capacity = b.capacity := by
  induction l with
  | nil => intro b; rfl
  | cons c l ih => intro b; rw [pushList_cons, ih, push_capacity]

/-- Overwrite-oldest arithmetic: pushing `l` onto a buffer whose content
respects the capacity bound leaves the suffix of `old ++ l` that fits, i.e.
the most recent `capacity` elements. -/
theorem pushList_data (l : List Nat) :
    ∀ b : CircularBuffer2, b.data.length ≤ b.capacity → 0 < b.capacity →
      (pushList b l).data = (b.data ++ l).drop (b.data.length + l.length - b.capacity) := by
  induction l with
  | nil =>
    intro b hlen _
    rw [pushList_nil, List.append_nil]
    simp [Nat.sub_eq_zero_of_le hlen]
  | cons c l ih =>
    intro b hlen hcap
    rw [pushList_cons]
    unfold CircularBuffer2.push
    by_cases hfull : b.full = true
    · -- the push overwrites the oldest element
      rw [if_pos hfull]
      simp only [CircularBuffer2.full, decide_eq_true_eq] at hfull
      have heq : b.data.length = b.capacity := Nat.le_antisymm hlen hfull
      have hne : b.data ≠ [] := by
        intro hnil
        rw [hnil] at heq
        simp at heq
        omega
      obtain ⟨d, ds, hds⟩ := List.exists_cons_of_ne_nil hne
      rw [hds]
      simp only [List.tail_cons]
      have hds_len : ds.length + 1 = b.capacity := by
        rw [hds] at heq
        simpa using heq
      rw [ih { b with data := ds ++ [c] } (by simp; omega) hcap]
      have h1 : ({ b with data := ds ++ [c] } : CircularBuffer2).data.length + l.length -
          b.capacity = l.length := by
        simp
        omega
      have h2 : (d :: ds).length + (c :: l).length - b.capacity = l.length + 1 := by
        simp
        omega
      rw [h1, h2]
      simp [List.append_assoc]
    · -- room available: plain append
      rw [if_neg hfull]
      rw [ih { b with data := b.data ++ [c] } (by simp [CircularBuffer2.full] at hfull ⊢; omega) hcap]
      have h1 : ({ b with data := b.data ++ [c] } : CircularBuffer2).data.length + l.length -
          b.capacity = b.data.length + (c :: l).length - b.capacity := by
        simp
        omega
      rw [h1]
      simp [List.append_assoc]

namespace BufferedSerial2

/-- A completed per-byte step always pushes the byte, and its trace is the
spin-then-enqueue pair or the bare enqueue, depending on the policy flag. -/
theorem pushBlocking_eq (st : SerialState) (c : Nat) (st1 : SerialState) (tr : List WAction)
    (h : pushBlocking st c = some (st1, tr)) :
    st1 = { st with txbuf := st.txbuf.push c } ∧
    (tr = [.spinUntilNotFull, .enqueue c] ∨ tr = [.enqueue c]) := by
  unfold pushBlocking at h
  split at h
  · split at h
    · exact absurd h (by simp)
    · simp only [Option.some.injEq, Prod.mk.injEq] at h
      exact ⟨h.1.symm, Or.inl h.2.symm⟩
  · simp only [Option.some.injEq, Prod.mk.injEq] at h
    exact ⟨h.1.symm, Or.inr h.2.symm⟩

/-- A completed per-byte loop pushes exactly its bytes onto the tx buffer and
touches nothing else; its trace enqueues exactly those bytes and never calls
`prime`. -/
theorem pushAll_state (l : List Nat) :
    ∀ (st st1 : SerialState) (tr : List WAction), pushAll st l = some (st1, tr) →
      st1 = { st with txbuf := pushList st.txbuf l } ∧ enqueued tr = l ∧
      WAction.callPrime ∉ tr := by
  induction l with
  | nil =>
    intro st st1 tr h
    simp only [pushAll, Option.some.injEq, Prod.mk.injEq] at h
    refine ⟨?_, ?_, ?_⟩
    · rw [← h.1, pushList_nil]
    · rw [← h.2]; rfl
    · rw [← h.2]; simp
  | cons c l ih =>
    intro st st1 tr h
    unfold pushAll at h
    cases hpb : pushBlocking st c with
    | none => simp [hpb] at h
    | some v =>
      obtain ⟨sta, tra⟩ := v
      simp only [hpb] at h
      cases hpa : pushAll sta l with
      | none => simp [hpa] at h
      | some w =>
        obtain ⟨stb, trb⟩ := w
        simp only [hpa, Option.some.injEq, Prod.mk.injEq] at h
        obtain ⟨hst, htr⟩ := h
        obtain ⟨hsta, htra⟩ := pushBlocking_eq st c sta tra hpb
        obtain ⟨hstb, henq, hnp⟩ := ih sta stb trb hpa
        refine ⟨?_, ?_, ?_⟩
        · rw [← hst, hstb, hsta, pushList_cons]
        · rw [← htr]
          have ha : enqueued tra = [c] := by
            rcases htra with h2 | h2 <;> rw [h2] <;> rfl
          simp only [enqueued, List.filterMap_append] at *
          rw [ha, henq]
          rfl
        · rw [← htr]
          simp only [List.mem_append, not_or]
          refine ⟨?_, hnp⟩
          rcases htra with h2 | h2 <;> rw [h2] <;> simp
  
/-- With `m_block_on_full = true`, a completed per-byte loop produces the
spin-then-enqueue pair for each byte, in order. -/
theorem pushAll_of_block_true (l : List Nat) :
    ∀ (st st1 : SerialState) (tr : List WAction), st.m_block_on_full = true →
      pushAll st l = some (st1, tr) →
      tr = l.flatMap (fun c => [WAction.spinUntilNotFull, WAction.enqueue c]) := by
  induction l with
  | nil =>
    intro st st1 tr _ h
    simp only [pushAll, Option.some.injEq, Prod.mk.injEq] at h
    rw [← h.2]
    rfl
  | cons c l ih =>
    intro st st1 tr hb h
    unfold pushAll at h
    cases hpb : pushBlocking st c with
    | none => simp [hpb] at h
    | some v =>
      obtain ⟨sta, tra⟩ := v
      simp only [hpb] at h
      cases hpa : pushAll sta l with
      | none => simp [hpa] at h
      | some w =>
        obtain ⟨stb, trb⟩ := w
        simp only [hpa, Option.some.injEq, Prod.mk.injEq] at h
        obtain ⟨hsta, htra⟩ := pushBlocking_eq st c sta tra hpb
        have hba : sta.m_block_on_full = true := by rw [hsta]; exact hb
        have htra2 : tra = [WAction.spinUntilNotFull, WAction.enqueue c] := by
          unfold pushBlocking at hpb
          rw [hb] at hpb
          simp only [if_true] at hpb
          split at hpb
          · exact absurd hpb (by simp)
          · simp only [Option.some.injEq, Prod.mk.injEq] at hpb
            exact hpb.2.symm
        rw [← h.2, htra2, ih sta stb trb hba hpa]
        rfl

/-- With `m_block_on_full = false`, the per-byte loop always completes: it
pushes every byte unconditionally and its trace holds no busy-wait. -/
theorem pushAll_of_block_false (l : List Nat) :
    ∀ st : SerialState, st.m_block_on_full = false →
      pushAll st l = some ({ st with txbuf := pushList st.txbuf l },
        l.map WAction.enqueue) := by
  induction l with
  | nil => intro st _; rfl
  | cons c l ih =>
    intro st hb
    have hpb : pushBlocking st c =
        some ({ st with txbuf := st.txbuf.push c }, [WAction.enqueue c]) := by
      unfold pushBlocking
      rw [hb]
      simp
    unfold pushAll
    simp [hpb, ih { st with txbuf := st.txbuf.push c } hb, pushList_cons]

end BufferedSerial2

/-- A spin-enqueue pair trace is spin-guarded before any suffix that is
spin-guarded under every predecessor. -/
theorem spinGuardedFrom_pairs (l : List Nat) :
    ∀ (p : Option WAction) (rest : List WAction),
      (∀ p2 : Option WAction, spinGuardedFrom p2 rest = true) →
      spinGuardedFrom p
        (l.flatMap (fun c => [WAction.spinUntilNotFull, WAction.enqueue c]) ++ rest) = true := by
  induction l with
  | nil => intro p rest h; simpa using h p
  | cons c l ih =>
    intro p rest h
    simp only [List.flatMap_cons, List.cons_append, List.append_assoc]
    simp only [spinGuardedFrom, Bool.true_and]
    simpa using ih (some (.enqueue c)) rest h

/-- A small port state used to instantiate claims: empty rx buffer (capacity
4), one byte queued in tx (capacity 4), blocking policy on, TX interrupt
detached, hardware busy. -/
def demoPort : SerialState :=
  { rxbuf := ⟨4, []⟩, txbuf := ⟨4, [7]⟩, m_block_on_full := true,
    txIrqAttached := false, hwSlots := 0, hwWritten := [] }

/-- C1: if `prime()` runs while the hardware can accept bytes and the tx
buffer holds bytes, then over the subsequent hardware-ready events — as soon
as the hardware has offered strictly more slots than there were queued bytes —
the hardware has received exactly the queued bytes, appended in FIFO push
order, the tx buffer is drained, and the transmit interrupt ends detached
(DISABLED), so it is not attached while there is no queued work. -/
theorem claim1_prime_drains_fifo_ends_disabled (st : SerialState) (r : Nat) (rs : List Nat)
    (hq : st.txbuf.data ≠ []) (hs : 0 < st.hwSlots)
    (htotal : st.txbuf.data.length < st.hwSlots + (r :: rs).sum) :
    (BufferedSerial2.runFires (BufferedSerial2.prime st) (r :: rs)).hwWritten
        = st.hwWritten ++ st.txbuf.data ∧
    (BufferedSerial2.runFires (BufferedSerial2.prime st) (r :: rs)).txbuf.data = [] ∧
    (BufferedSerial2.runFires (BufferedSerial2.prime st) (r :: rs)).txIrqAttached = false := by
  have h0 := BufferedSerial2.prime_drainInv st hs
  have h1 := BufferedSerial2.fire_drainInv st.txbuf.data st.hwWritten st.hwSlots r
    (BufferedSerial2.prime st) h0
  have h2 := BufferedSerial2.runFires_drainInvAB st.txbuf.data st.hwWritten rs
    (st.hwSlots + r) (BufferedSerial2.fire (BufferedSerial2.prime st) r) h1
  have hrun : BufferedSerial2.runFires (BufferedSerial2.prime st) (r :: rs)
      = BufferedSerial2.runFires (BufferedSerial2.fire (BufferedSerial2.prime st) r) rs := rfl
  rw [hrun]
  rcases h2 with ⟨ht, _, _, _, _⟩ | ⟨_, hdata, hw, hatt⟩
  · exfalso
    rw [List.sum_cons] at htotal
    omega
  · exact ⟨hw, hdata, hatt⟩

/-- Witness for C1 at a concrete port: 3 queued bytes, hardware accepting 2
immediately and 5 more at the next ready event. -/
theorem claim1_witness :
    (BufferedSerial2.runFires
        (BufferedSerial2.prime
          { rxbuf := ⟨4, []⟩, txbuf := ⟨4, [1, 2, 3]⟩, m_block_on_full := false,
            txIrqAttached := false, hwSlots := 2, hwWritten := [] }) [5]).hwWritten
      = [] ++ [1, 2, 3] ∧
    (BufferedSerial2.runFires
        (BufferedSerial2.prime
          { rxbuf := ⟨4, []⟩, txbuf := ⟨4, [1, 2, 3]⟩, m_block_on_full := false,
            txIrqAttached := false, hwSlots := 2, hwWritten := [] }) [5]).txbuf.data = [] ∧
    (BufferedSerial2.runFires
        (BufferedSerial2.prime
          { rxbuf := ⟨4, []⟩, txbuf := ⟨4, [1, 2, 3]⟩, m_block_on_full := false,
            txIrqAttached := false, hwSlots := 2, hwWritten := [] }) [5]).txIrqAttached
      = false :=
  claim1_prime_drains_fifo_ends_disabled
    { rxbuf := ⟨4, []⟩, txbuf := ⟨4, [1, 2, 3]⟩, m_block_on_full := false,
      txIrqAttached := false, hwSlots := 2, hwWritten := [] }
    5 [] (by decide) (by decide) (by decide)

/-- C2: with writable hardware, `prime` equals detach-then-`txIrq`-then-
re-attach; with busy hardware, `prime` changes nothing at all. -/
theorem claim2_prime_detach_drain_reattach :
    (∀ st : SerialState, 0 < st.hwSlots →
      BufferedSerial2.prime st =
        { BufferedSerial2.txIrq { st with txIrqAttached := false } with txIrqAttached := true }) ∧
    (∀ st : SerialState, st.hwSlots = 0 → BufferedSerial2.prime st = st) := by
  constructor
  · intro st h
    unfold BufferedSerial2.prime
    rw [if_pos h]
  · intro st h
    unfold BufferedSerial2.prime
    rw [if_neg (by omega)]

/-- Witness for C2: a port with one hardware slot takes the detach-drain-
re-attach path; the same port with no slot is left untouched. -/
theorem claim2_witness :
    BufferedSerial2.prime
        { rxbuf := ⟨4, []⟩, txbuf := ⟨4, [9]⟩, m_block_on_full := true,
          txIrqAttached := true, hwSlots := 1, hwWritten := [] }
      = { BufferedSerial2.txIrq
            { rxbuf := ⟨4, []⟩, txbuf := ⟨4, [9]⟩, m_block_on_full := true,
              txIrqAttached := false, hwSlots := 1, hwWritten := [] }
          with txIrqAttached := true } ∧
    BufferedSerial2.prime demoPort = demoPort :=
  ⟨claim2_prime_detach_drain_reattach.1
      { rxbuf := ⟨4, []⟩, txbuf := ⟨4, [9]⟩, m_block_on_full := true,
        txIrqAttached := true, hwSlots := 1, hwWritten := [] } (by decide),
    claim2_prime_detach_drain_reattach.2 demoPort (by decide)⟩

/-- C8: the degenerate write-surface inputs — NULL pointer to `write`, zero
length to `write`, NULL pointer to `puts` — return 0, leave the whole port
state unchanged, perform no enqueue and never call `prime` (empty trace). -/
theorem claim8_degenerate_noops :
    ∀ (st : SerialState) (n : Nat) (mem : Nat → Nat),
      BufferedSerial2.write st none n = some (0, st, []) ∧
      BufferedSerial2.write st (some mem) 0 = some (0, st, []) ∧
      BufferedSerial2.puts st none = some (0, st, []) :=
  fun _ _ _ => ⟨rfl, rfl, rfl⟩

/-- C9: `getc` (and the identical `_getc`) on an empty rx buffer is defined:
it returns 0 and leaves the entire port state — in particular both buffers —
unchanged. -/
theorem claim9_getc_empty_returns_zero (st : SerialState) (h : st.rxbuf.data = []) :
    BufferedSerial2.getc st = (0, st) := by
  have hp : st.rxbuf.pop = none := by
    unfold CircularBuffer2.pop
    rw [h]
  unfold BufferedSerial2.getc
  rw [hp]

/-- Witness for C9: `getc` on a port with an empty rx buffer (and a non-empty
tx buffer) returns 0 and the untouched state. -/
theorem claim9_witness : BufferedSerial2.getc demoPort = (0, demoPort) :=
  claim9_getc_empty_returns_zero demoPort rfl

/-- C10: `writeable` returns 1 in every port state — among them every state
whose tx buffer is full and either blocking policy — and leaves the state
unchanged, consulting nothing. -/
theorem claim10_writeable_always_one :
    ∀ st : SerialState, BufferedSerial2.writeable st = (1, st) :=
  fun _ => rfl

theorem enqueued_append (a b : List WAction) :
    enqueued (a ++ b) = enqueued a ++ enqueued b := by
  simp [enqueued]

/-- A trace of the form `pre ++ [callPrime]` with no `callPrime` in `pre`
calls `prime` exactly once, as its final action. -/
theorem prime_once_last (pre : List WAction) (h : WAction.callPrime ∉ pre) :
    (pre ++ [WAction.callPrime]).count WAction.callPrime = 1 ∧
    (pre ++ [WAction.callPrime]).getLast? = some WAction.callPrime := by
  constructor
  · rw [List.count_append, List.count_eq_zero.mpr h]
    rfl
  · exact List.getLast?_concat pre

/-- C6: a completed `puts` on a non-NULL NUL-terminated string enqueues
exactly the body bytes followed by one `'\n'` (byte 10), in order, returns
the byte count including the terminator, and the port state is the
body-then-terminator pushes followed by `prime`. -/
theorem claim6_puts_enqueues_body_newline (st : SerialState) (body : List Nat)
    (r : Int) (st1 : SerialState) (tr : List WAction)
    (hbody : ∀ b ∈ body, b ≠ 0)
    (h : BufferedSerial2.puts st (some body) = some (r, st1, tr)) :
    enqueued tr = body ++ [10] ∧ r = (body.length : Int) + 1 ∧
    st1 = BufferedSerial2.prime
      { st with txbuf := (pushList st.txbuf body).push 10 } := by
  unfold BufferedSerial2.puts at h
  cases hpa : BufferedSerial2.pushAll st body with
  | none => simp [hpa] at h
  | some v =>
    obtain ⟨sta, tra⟩ := v
    simp only [hpa, Option.some.injEq, Prod.mk.injEq] at h
    obtain ⟨hr, hst, htr⟩ := h
    obtain ⟨hsta, henq, -⟩ := BufferedSerial2.pushAll_state body st sta tra hpa
    refine ⟨?_, hr.symm, ?_⟩
    · rw [← htr, enqueued_append, henq]
      rfl
    · rw [← hst, hsta]

/-- Witness for C6 at `puts("AB")` on an empty non-blocking port: exactly the
three bytes `'A'`, `'B'`, `'\n'` are enqueued and 3 is returned. -/
theorem claim6_witness :
    enqueued [WAction.enqueue 65, WAction.enqueue 66, WAction.enqueue 10,
        WAction.callPrime] = [65, 66] ++ [10] ∧
    (3 : Int) = ((65 :: [66]).length : Int) + 1 ∧
    ({ rxbuf := ⟨4, []⟩, txbuf := ⟨4, [65, 66, 10]⟩, m_block_on_full := false,
        txIrqAttached := false, hwSlots := 0, hwWritten := [] } : SerialState)
      = BufferedSerial2.prime
          { ({ rxbuf := ⟨4, []⟩, txbuf := ⟨4, []⟩, m_block_on_full := false,
                txIrqAttached := false, hwSlots := 0, hwWritten := [] } : SerialState) with
            txbuf := (pushList (⟨4, []⟩ : CircularBuffer2) [65, 66]).push 10 } :=
  claim6_puts_enqueues_body_newline
    { rxbuf := ⟨4, []⟩, txbuf := ⟨4, []⟩, m_block_on_full := false,
      txIrqAttached := false, hwSlots := 0, hwWritten := [] }
    [65, 66] 3
    { rxbuf := ⟨4, []⟩, txbuf := ⟨4, [65, 66, 10]⟩, m_block_on_full := false,
      txIrqAttached := false, hwSlots := 0, hwWritten := [] }
    [WAction.enqueue 65, WAction.enqueue 66, WAction.enqueue 10, WAction.callPrime]
    (by decide) (by decide)

/-- C7: a completed bulk `write` with a non-NULL pointer and positive length
enqueues exactly the `length` bytes starting at the pointer, one at a time in
order, returns `length`, and the state is those pushes followed by `prime`. -/
theorem claim7_write_enqueues_exactly (st : SerialState) (mem : Nat → Nat) (n : Nat)
    (r : Int) (st1 : SerialState) (tr : List WAction) (hn : 0 < n)
    (h : BufferedSerial2.write st (some mem) n = some (r, st1, tr)) :
    enqueued tr = (List.range n).map mem ∧ r = (n : Int) ∧
    st1 = BufferedSerial2.prime
      { st with txbuf := pushList st.txbuf ((List.range n).map mem) } := by
  simp only [BufferedSerial2.write, if_pos hn] at h
  cases hpa : BufferedSerial2.pushAll st ((List.range n).map mem) with
  | none => simp [hpa] at h
  | some v =>
    obtain ⟨sta, tra⟩ := v
    simp only [hpa, Option.some.injEq, Prod.mk.injEq] at h
    obtain ⟨hr, hst, htr⟩ := h
    obtain ⟨hsta, henq, -⟩ := BufferedSerial2.pushAll_state ((List.range n).map mem) st sta tra hpa
    refine ⟨?_, hr.symm, ?_⟩
    · rw [← htr, enqueued_append, henq]
      simp [enqueued]
    · rw [← hst, hsta]

/-- Witness for C7: writing the two bytes 5, 6 on an empty non-blocking port
enqueues exactly them and returns 2. -/
theorem claim7_witness :
    enqueued [WAction.enqueue 5, WAction.enqueue 6, WAction.callPrime]
        = (List.range 2).map (fun i => i + 5) ∧
    (2 : Int) = ((2 : Nat) : Int) ∧
    ({ rxbuf := ⟨4, []⟩, txbuf := ⟨4, [5, 6]⟩, m_block_on_full := false,
        txIrqAttached := false, hwSlots := 0, hwWritten := [] } : SerialState)
      = BufferedSerial2.prime
          { ({ rxbuf := ⟨4, []⟩, txbuf := ⟨4, []⟩, m_block_on_full := false,
                txIrqAttached := false, hwSlots := 0, hwWritten := [] } : SerialState) with
            txbuf := pushList (⟨4, []⟩ : CircularBuffer2)
              ((List.range 2).map (fun i => i + 5)) } :=
  claim7_write_enqueues_exactly
    { rxbuf := ⟨4, []⟩, txbuf := ⟨4, []⟩, m_block_on_full := false,
      txIrqAttached := false, hwSlots := 0, hwWritten := [] }
    (fun i => i + 5) 2 2
    { rxbuf := ⟨4, []⟩, txbuf := ⟨4, [5, 6]⟩, m_block_on_full := false,
      txIrqAttached := false, hwSlots := 0, hwWritten := [] }
    [WAction.enqueue 5, WAction.enqueue 6, WAction.callPrime]
    (by decide) (by decide)

/-- C4: each completed write-family call — `putc`, `puts` with a non-NULL
string, bulk `write` with a non-NULL pointer and positive length — calls
`prime` exactly once, and that call is the very last action of the trace,
after every byte of the call has been enqueued. -/
theorem claim4_prime_once_at_end :
    (∀ (st : SerialState) (c r : Int) (st1 : SerialState) (tr : List WAction),
        BufferedSerial2.putc st c = some (r, st1, tr) →
        tr.count WAction.callPrime = 1 ∧ tr.getLast? = some WAction.callPrime) ∧
    (∀ (st : SerialState) (body : List Nat) (r : Int) (st1 : SerialState) (tr : List WAction),
        BufferedSerial2.puts st (some body) = some (r, st1, tr) →
        tr.count WAction.callPrime = 1 ∧ tr.getLast? = some WAction.callPrime) ∧
    (∀ (st : SerialState) (mem : Nat → Nat) (n : Nat) (r : Int) (st1 : SerialState)
        (tr : List WAction), 0 < n →
        BufferedSerial2.write st (some mem) n = some (r, st1, tr) →
        tr.count WAction.callPrime = 1 ∧ tr.getLast? = some WAction.callPrime) := by
  refine ⟨?_, ?_, ?_⟩
  · intro st c r st1 tr h
    unfold BufferedSerial2.putc at h
    cases hpb : BufferedSerial2.pushBlocking st (c.emod 256).toNat with
    | none => simp [hpb] at h
    | some v =>
      obtain ⟨sta, tra⟩ := v
      simp only [hpb, Option.some.injEq, Prod.mk.injEq] at h
      obtain ⟨-, -, htr⟩ := h
      obtain ⟨-, htra⟩ := BufferedSerial2.pushBlocking_eq st _ sta tra hpb
      rw [← htr]
      refine prime_once_last tra ?_
      rcases htra with h2 | h2 <;> rw [h2] <;> simp
  · intro st body r st1 tr h
    unfold BufferedSerial2.puts at h
    cases hpa : BufferedSerial2.pushAll st body with
    | none => simp [hpa] at h
    | some v =>
      obtain ⟨sta, tra⟩ := v
      simp only [hpa, Option.some.injEq, Prod.mk.injEq] at h
      obtain ⟨-, -, htr⟩ := h
      obtain ⟨-, -, hnp⟩ := BufferedSerial2.pushAll_state body st sta tra hpa
      rw [← htr]
      have hassoc : tra ++ [WAction.enqueue 10, WAction.callPrime]
          = (tra ++ [WAction.enqueue 10]) ++ [WAction.callPrime] := by
        rw [List.append_assoc]
        rfl
      rw [hassoc]
      refine prime_once_last (tra ++ [WAction.enqueue 10]) ?_
      simp only [List.mem_append, not_or]
      exact ⟨hnp, by simp⟩
  · intro st mem n r st1 tr hn h
    simp only [BufferedSerial2.write, if_pos hn] at h
    cases hpa : BufferedSerial2.pushAll st ((List.range n).map mem) with
    | none => simp [hpa] at h
    | some v =>
      obtain ⟨sta, tra⟩ := v
      simp only [hpa, Option.some.injEq, Prod.mk.injEq] at h
      obtain ⟨-, -, htr⟩ := h
      obtain ⟨-, -, hnp⟩ := BufferedSerial2.pushAll_state ((List.range n).map mem) st sta tra hpa
      rw [← htr]
      exact prime_once_last tra hnp

/-- Witness for C4: the concrete traces of `putc 65`, `puts "A"` and
`write [5]` on an empty non-blocking port each call `prime` exactly once,
as the last action. -/
theorem claim4_witness :
    (([WAction.enqueue 65, WAction.callPrime] : List WAction).count WAction.callPrime = 1 ∧
      ([WAction.enqueue 65, WAction.callPrime] : List WAction).getLast?
        = some WAction.callPrime) ∧
    (([WAction.enqueue 65, WAction.enqueue 10, WAction.callPrime] : List WAction).count
        WAction.callPrime = 1 ∧
      ([WAction.enqueue 65, WAction.enqueue 10, WAction.callPrime] : List WAction).getLast?
        = some WAction.callPrime) ∧
    (([WAction.enqueue 5, WAction.callPrime] : List WAction).count WAction.callPrime = 1 ∧
      ([WAction.enqueue 5, WAction.callPrime] : List WAction).getLast?
        = some WAction.callPrime) :=
  ⟨claim4_prime_once_at_end.1
      { rxbuf := ⟨4, []⟩, txbuf := ⟨4, []⟩, m_block_on_full := false,
        txIrqAttached := false, hwSlots := 0, hwWritten := [] }
      65 65
      { rxbuf := ⟨4, []⟩, txbuf := ⟨4, [65]⟩, m_block_on_full := false,
        txIrqAttached := false, hwSlots := 0, hwWritten := [] }
      [WAction.enqueue 65, WAction.callPrime] (by decide),
    claim4_prime_once_at_end.2.1
      { rxbuf := ⟨4, []⟩, txbuf := ⟨4, []⟩, m_block_on_full := false,
        txIrqAttached := false, hwSlots := 0, hwWritten := [] }
      [65] 2
      { rxbuf := ⟨4, []⟩, txbuf := ⟨4, [65, 10]⟩, m_block_on_full := false,
        txIrqAttached := false, hwSlots := 0, hwWritten := [] }
      [WAction.enqueue 65, WAction.enqueue 10, WAction.callPrime] (by decide),
    claim4_prime_once_at_end.2.2
      { rxbuf := ⟨4, []⟩, txbuf := ⟨4, []⟩, m_block_on_full := false,
        txIrqAttached := false, hwSlots := 0, hwWritten := [] }
      (fun _ => 5) 1 1
      { rxbuf := ⟨4, []⟩, txbuf := ⟨4, [5]⟩, m_block_on_full := false,
        txIrqAttached := false, hwSlots := 0, hwWritten := [] }
      [WAction.enqueue 5, WAction.callPrime] (by decide) (by decide)⟩

theorem prime_hwSlots_zero (st : SerialState) (h : st.hwSlots = 0) :
    BufferedSerial2.prime st = st := by
  unfold BufferedSerial2.prime
  rw [if_neg (by omega)]

/-- C5: with `m_block_on_full = false`, no write-family call busy-waits: each
of `putc`, `puts`, bulk `write` completes (with no busy-wait action in its
trace) whatever the tx buffer holds; and a burst of at least `capacity` bytes
through `write` (with busy hardware) leaves the tx buffer holding exactly the
most recent `capacity` bytes of the burst. -/
theorem claim5_nonblocking_never_waits :
    (∀ (st : SerialState) (c : Int), st.m_block_on_full = false →
      ∃ (st1 : SerialState) (tr : List WAction),
        BufferedSerial2.putc st c = some (c, st1, tr) ∧
        WAction.spinUntilNotFull ∉ tr) ∧
    (∀ (st : SerialState) (body : List Nat), st.m_block_on_full = false →
      ∃ (st1 : SerialState) (tr : List WAction),
        BufferedSerial2.puts st (some body) = some ((body.length : Int) + 1, st1, tr) ∧
        WAction.spinUntilNotFull ∉ tr) ∧
    (∀ (st : SerialState) (mem : Nat → Nat) (n : Nat), st.m_block_on_full = false →
      ∃ (st1 : SerialState) (tr : List WAction),
        BufferedSerial2.write st (some mem) n = some ((n : Int), st1, tr) ∧
        WAction.spinUntilNotFull ∉ tr) ∧
    (∀ (st : SerialState) (mem : Nat → Nat) (n : Nat), st.m_block_on_full = false →
      st.hwSlots = 0 → st.txbuf.data.length ≤ st.txbuf.capacity →
      0 < st.txbuf.capacity → st.txbuf.capacity ≤ n →
      ∃ tr : List WAction,
        BufferedSerial2.write st (some mem) n =
          some ((n : Int),
            { st with txbuf := ⟨st.txbuf.capacity,
                ((List.range n).map mem).drop (n - st.txbuf.capacity)⟩ }, tr)) := by
  have hputc : ∀ (st : SerialState) (c : Int), st.m_block_on_full = false →
      BufferedSerial2.putc st c =
        some (c, BufferedSerial2.prime { st with txbuf := st.txbuf.push (c.emod 256).toNat },
          [WAction.enqueue (c.emod 256).toNat, WAction.callPrime]) := by
    intro st c hb
    have hpb : BufferedSerial2.pushBlocking st (c.emod 256).toNat =
        some ({ st with txbuf := st.txbuf.push (c.emod 256).toNat },
          [WAction.enqueue (c.emod 256).toNat]) := by
      unfold BufferedSerial2.pushBlocking
      rw [hb]
      simp
    unfold BufferedSerial2.putc
    rw [hpb]
    rfl
  have hwrite : ∀ (st : SerialState) (mem : Nat → Nat) (n : Nat), st.m_block_on_full = false →
      BufferedSerial2.write st (some mem) n =
        some ((n : Int),
          if 0 < n then
            BufferedSerial2.prime
              { st with txbuf := pushList st.txbuf ((List.range n).map mem) }
          else st,
          if 0 < n then ((List.range n).map mem).map WAction.enqueue ++ [WAction.callPrime]
          else []) := by
    intro st mem n hb
    rcases Nat.eq_zero_or_pos n with h0 | hn
    · subst h0
      rfl
    · simp only [BufferedSerial2.write, if_pos hn,
        BufferedSerial2.pushAll_of_block_false ((List.range n).map mem) st hb]
  refine ⟨?_, ?_, ?_, ?_⟩
  · intro st c hb
    exact ⟨_, _, hputc st c hb, by simp⟩
  · intro st body hb
    have hputs : BufferedSerial2.puts st (some body) =
        some ((body.length : Int) + 1,
          BufferedSerial2.prime
            { st with txbuf := (pushList st.txbuf body).push 10 },
          body.map WAction.enqueue ++ [WAction.enqueue 10, WAction.callPrime]) := by
      simp only [BufferedSerial2.puts,
        BufferedSerial2.pushAll_of_block_false body st hb]
    refine ⟨_, _, hputs, ?_⟩
    simp only [List.mem_append, List.mem_map, not_or]
    refine ⟨?_, by simp⟩
    rintro ⟨b, -, hab⟩
    exact absurd hab (by simp)
  · intro st mem n hb
    refine ⟨_, _, hwrite st mem n hb, ?_⟩
    split
    · simp only [List.mem_append, List.mem_map, not_or]
      refine ⟨?_, by simp⟩
      rintro ⟨b, -, hab⟩
      exact absurd hab (by simp)
    · simp
  · intro st mem n hb hslots hlen hcap hcapn
    have hn : 0 < n := by omega
    have hdata : (pushList st.txbuf ((List.range n).map mem)).data
        = ((List.range n).map mem).drop (n - st.txbuf.capacity) := by
      rw [pushList_data ((List.range n).map mem) st.txbuf hlen hcap]
      have hlenmap : ((List.range n).map mem).length = n := by simp
      have hidx : st.txbuf.data.length + ((List.range n).map mem).length - st.txbuf.capacity
          = st.txbuf.data.length + (n - st.txbuf.capacity) := by
        rw [hlenmap]
        omega
      rw [hidx, List.drop_append (n - st.txbuf.capacity)]
    have hbuf : pushList st.txbuf ((List.range n).map mem)
        = ⟨st.txbuf.capacity, ((List.range n).map mem).drop (n - st.txbuf.capacity)⟩ := by
      have hc := pushList_capacity ((List.range n).map mem) st.txbuf
      rcases hE : pushList st.txbuf ((List.range n).map mem) with ⟨cap2, data2⟩
      rw [hE] at hdata hc
      simp only at hdata hc
      rw [hdata, hc]
    have hfin : BufferedSerial2.write st (some mem) n =
        some ((n : Int),
          { st with txbuf := ⟨st.txbuf.capacity,
              ((List.range n).map mem).drop (n - st.txbuf.capacity)⟩ },
          ((List.range n).map mem).map WAction.enqueue ++ [WAction.callPrime]) := by
      rw [hwrite st mem n hb, if_pos hn, if_pos hn,
        prime_hwSlots_zero
          { st with txbuf := pushList st.txbuf ((List.range n).map mem) } hslots,
        hbuf]
    exact ⟨_, hfin⟩

/-- A non-blocking port with tx capacity 2 already holding two bytes. -/
def nbFullPort : SerialState :=
  { rxbuf := ⟨4, []⟩, txbuf := ⟨2, [1, 2]⟩, m_block_on_full := false,
    txIrqAttached := false, hwSlots := 0, hwWritten := [] }

/-- A non-blocking port with tx capacity 2, empty. -/
def nbEmptyPort : SerialState :=
  { rxbuf := ⟨4, []⟩, txbuf := ⟨2, []⟩, m_block_on_full := false,
    txIrqAttached := false, hwSlots := 0, hwWritten := [] }

/-- Witness for C5 on a non-blocking port with tx capacity 2: `putc`, `puts`
and a 3-byte `write` all complete without a busy-wait, and the 3-byte burst
leaves exactly the last 2 bytes in the tx buffer. -/
theorem claim5_witness :
    (∃ (st1 : SerialState) (tr : List WAction),
      BufferedSerial2.putc nbFullPort 65 = some (65, st1, tr) ∧
      WAction.spinUntilNotFull ∉ tr) ∧
    (∃ (st1 : SerialState) (tr : List WAction),
      BufferedSerial2.puts nbFullPort (some [65])
        = some ((([65] : List Nat).length : Int) + 1, st1, tr) ∧
      WAction.spinUntilNotFull ∉ tr) ∧
    (∃ tr : List WAction,
      BufferedSerial2.write nbEmptyPort (some (fun i => i + 7)) 3
        = some (((3 : Nat) : Int),
            { nbEmptyPort with
              txbuf := ⟨nbEmptyPort.txbuf.capacity,
                ((List.range 3).map (fun i => i + 7)).drop
                  (3 - nbEmptyPort.txbuf.capacity)⟩ }, tr)) :=
  ⟨claim5_nonblocking_never_waits.1 nbFullPort 65 rfl,
    claim5_nonblocking_never_waits.2.1 nbFullPort [65] rfl,
    claim5_nonblocking_never_waits.2.2.2 nbEmptyPort (fun i => i + 7) 3 rfl rfl
      (by decide) (by decide) (by decide)⟩

/-- A blocking-policy port with room in the tx buffer, used to exhibit the
`puts` line-terminator trace. -/
def blockingPort : SerialState :=
  { rxbuf := ⟨4, []⟩, txbuf := ⟨4, []⟩, m_block_on_full := true,
    txIrqAttached := false, hwSlots := 0, hwWritten := [] }

/-- Counterexample to C3 as stated: on a `block_on_full = true` port,
`puts` with the one-byte body 65 produces the trace
`[spin, enqueue 65, enqueue 10, callPrime]`, in which the enqueue of the line
terminator (byte 10) is directly preceded by `enqueue 65`, not by a busy-wait
— so not every enqueue of the call is preceded by a spin
(`spinGuarded` is `false`). -/
theorem claim3_counterexample :
    blockingPort.m_block_on_full = true ∧
    BufferedSerial2.puts blockingPort (some [65]) =
      some (2,
        { rxbuf := ⟨4, []⟩, txbuf := ⟨4, [65, 10]⟩, m_block_on_full := true,
          txIrqAttached := false, hwSlots := 0, hwWritten := [] },
        [WAction.spinUntilNotFull, WAction.enqueue 65, WAction.enqueue 10,
          WAction.callPrime]) ∧
    spinGuarded [WAction.spinUntilNotFull, WAction.enqueue 65, WAction.enqueue 10,
      WAction.callPrime] = false := by
  refine ⟨rfl, by decide, rfl⟩

/-- C3 amended: with `block_on_full = true`, every enqueue performed by `putc`
and by bulk `write` is directly preceded by the busy-wait on "tx not full",
and in `puts` every enqueue of the string body is so preceded — but the final
line-terminator enqueue (byte 10, followed only by the `prime` call) is not
guarded by a busy-wait. -/
theorem claim3_amended_spin_guards :
    (∀ (st : SerialState) (c r : Int) (st1 : SerialState) (tr : List WAction),
        st.m_block_on_full = true → BufferedSerial2.putc st c = some (r, st1, tr) →
        spinGuarded tr = true) ∧
    (∀ (st : SerialState) (mem : Nat → Nat) (n : Nat) (r : Int) (st1 : SerialState)
        (tr : List WAction),
        st.m_block_on_full = true → BufferedSerial2.write st (some mem) n = some (r, st1, tr) →
        spinGuarded tr = true) ∧
    (∀ (st : SerialState) (body : List Nat) (r : Int) (st1 : SerialState) (tr : List WAction),
        st.m_block_on_full = true → BufferedSerial2.puts st (some body) = some (r, st1, tr) →
        ∃ pre, tr = pre ++ [WAction.enqueue 10, WAction.callPrime] ∧
          spinGuarded pre = true) := by
  refine ⟨?_, ?_, ?_⟩
  · intro st c r st1 tr hb h
    unfold BufferedSerial2.putc at h
    cases hpb : BufferedSerial2.pushBlocking st (c.emod 256).toNat with
    | none => simp [hpb] at h
    | some v =>
      obtain ⟨sta, tra⟩ := v
      simp only [hpb, Option.some.injEq, Prod.mk.injEq] at h
      have htra : tra = [WAction.spinUntilNotFull, WAction.enqueue (c.emod 256).toNat] := by
        unfold BufferedSerial2.pushBlocking at hpb
        rw [hb] at hpb
        simp only [if_true] at hpb
        split at hpb
        · exact absurd hpb (by simp)
        · simp only [Option.some.injEq, Prod.mk.injEq] at hpb
          exact hpb.2.symm
      rw [← h.2.2, htra]
      rfl
  · intro st mem n r st1 tr hb h
    rcases Nat.eq_zero_or_pos n with h0 | hn
    · subst h0
      simp only [BufferedSerial2.write, Nat.lt_irrefl, if_false,
        Option.some.injEq, Prod.mk.injEq] at h
      rw [← h.2.2]
      rfl
    · simp only [BufferedSerial2.write, if_pos hn] at h
      cases hpa : BufferedSerial2.pushAll st ((List.range n).map mem) with
      | none => simp [hpa] at h
      | some v =>
        obtain ⟨sta, tra⟩ := v
        simp only [hpa, Option.some.injEq, Prod.mk.injEq] at h
        rw [← h.2.2,
          BufferedSerial2.pushAll_of_block_true ((List.range n).map mem) st sta tra hb hpa]
        exact spinGuardedFrom_pairs ((List.range n).map mem) none
          [WAction.callPrime] (fun _ => rfl)
  · intro st body r st1 tr hb h
    unfold BufferedSerial2.puts at h
    cases hpa : BufferedSerial2.pushAll st body with
    | none => simp [hpa] at h
    | some v =>
      obtain ⟨sta, tra⟩ := v
      simp only [hpa, Option.some.injEq, Prod.mk.injEq] at h
      refine ⟨tra, h.2.2.symm, ?_⟩
      rw [BufferedSerial2.pushAll_of_block_true body st sta tra hb hpa]
      have := spinGuardedFrom_pairs body none [] (fun _ => rfl)
      simpa using this

/-- Witness for the amended C3: the concrete blocking-port traces of
`putc 65`, `write` of one byte 66, and `puts` with body 65. -/
theorem claim3_amended_witness :
    spinGuarded [WAction.spinUntilNotFull, WAction.enqueue 65, WAction.callPrime] = true ∧
    spinGuarded [WAction.spinUntilNotFull, WAction.enqueue 66, WAction.callPrime] = true ∧
    (∃ pre, ([WAction.spinUntilNotFull, WAction.enqueue 65, WAction.enqueue 10,
        WAction.callPrime] : List WAction) =
          pre ++ [WAction.enqueue 10, WAction.callPrime] ∧
      spinGuarded pre = true) :=
  ⟨claim3_amended_spin_guards.1 blockingPort 65 65
      (BufferedSerial2.prime
        { blockingPort with txbuf := blockingPort.txbuf.push 65 })
      [WAction.spinUntilNotFull, WAction.enqueue 65, WAction.callPrime] rfl (by decide),
    claim3_amended_spin_guards.2.1 blockingPort (fun _ => 66) 1 1
      (BufferedSerial2.prime
        { blockingPort with txbuf := blockingPort.txbuf.push 66 })
      [WAction.spinUntilNotFull, WAction.enqueue 66, WAction.callPrime] rfl (by decide),
    claim3_amended_spin_guards.2.2 blockingPort [65] 2
      (BufferedSerial2.prime
        { blockingPort with txbuf := (blockingPort.txbuf.push 65).push 10 })
      [WAction.spinUntilNotFull, WAction.enqueue 65, WAction.enqueue 10,
        WAction.callPrime] rfl (by decide)⟩
